import Mathlib

/-!
Shallow embedding of the address-detection / relocation-descriptor engine of
`src/script/patch_memory_usage.py`, together with theorems checking the
natural-language specification against it.

Bytes are modelled as `Nat` values (each in `0..255` as produced by reading a
binary file); byte strings as `List Nat`.  Python `int` is `Int`/`Nat`.
The external disassembler (capstone) is modelled as an oracle function
supplied as a parameter: it may raise (the `Except.error` case), return no
instruction (`Except.ok none` — `list(md.disasm(code, addr, count=1))` empty),
or return one decoded instruction.
-/

namespace PatchScript

/-- Upper-case hexadecimal digit character, as produced by Python `"%X"`
formatting (`0`-`9`, `A`-`F`). -/
def hexDigitCharU (n : Nat) : Char :=
  if n < 10 then Char.ofNat (48 + n) else Char.ofNat (55 + n)

/-- Digits of `n` in base 16, most significant first, accumulated into `acc`.
The first argument is a structural-recursion budget; `n + 1` steps always
suffice since the number of hexadecimal digits of `n` is at most `n + 1`. -/
def hexDigitsAux : Nat → Nat → List Char → List Char
  | 0, _, acc => acc
  | fuel + 1, n, acc =>
    if n < 16 then hexDigitCharU n :: acc
    else hexDigitsAux fuel (n / 16) (hexDigitCharU (n % 16) :: acc)

/-- Python `f"{n:X}"` for a non-negative `n`: upper-case hex digits, no
leading zeros, `"0"` for zero. -/
def hexUpper (n : Nat) : String :=
  String.mk (hexDigitsAux (n + 1) n [])

/-- Python `f"{n:08X}"`: upper-case hex, left-padded with `'0'` to at least
eight digits. -/
def hexPad8 (n : Nat) : String :=
  let ds := hexDigitsAux (n + 1) n []
  String.mk (List.replicate (8 - ds.length) '0' ++ ds)

/-- The `offset` field rendering of `main` (line 313):
`f"0x{m:X}" if m >= 0 else f"-0x{abs(m):X}"`. -/
def formatOffset (m : Int) : String :=
  if 0 ≤ m then "0x" ++ hexUpper m.toNat else "-0x" ++ hexUpper m.natAbs

/-- One embedded-address finding of the byte-reference scanner: the dict
`{'byte_offset': i, 'memory_offset': addr - memory_base, 'original_addr': addr}`
appended by `find_memory_references_in_bytes`. -/
structure MemMatch where
  byte_offset : Nat
  memory_offset : Int
  original_addr : Nat
deriving DecidableEq

/-- `struct.unpack('<I', b)[0]` for a 4-byte slice `b`: the little-endian
32-bit value.  (Python would raise on a slice of any other length; the
scanner only ever builds 4-byte slices.) -/
def unpackLE32 : List Nat → Nat
  | [b0, b1, b2, b3] => b0 + 256 * (b1 + 256 * (b2 + 256 * b3))
  | _ => 0

/-- `find_memory_references_in_bytes` (lines 118-147): scan each position
`i` in `range(len(instruction_bytes) - 3)`, take the little-endian dword at
`instruction_bytes[i:i+4]`, and record a match when
`abs(addr - memory_base) <= max_range`. -/
def find_memory_references_in_bytes (instruction_bytes : List Nat)
    (memory_base max_range : Int) : List MemMatch :=
  (List.range (instruction_bytes.length - 3)).filterMap (fun i =>
    let addr := unpackLE32 ((instruction_bytes.drop i).take 4)
    if |(addr : Int) - memory_base| ≤ max_range then
      some { byte_offset := i
             memory_offset := (addr : Int) - memory_base
             original_addr := addr }
    else none)

/-- Specification-side view of the little-endian 32-bit value beginning at
index `i` of `bs`, written with direct indexing rather than slicing. -/
def leValueAt (bs : List Nat) (i : Nat) : Nat :=
  bs.getD i 0 + 256 * (bs.getD (i + 1) 0 + 256 * (bs.getD (i + 2) 0 + 256 * bs.getD (i + 3) 0))

/-- The `hex_chars` list of `create_patched_bytes_string` (lines 161-163):
each byte contributes the two characters of `f"{b:02X}"`, i.e. its high and
low nibble as upper-case hex digits. -/
def hexChars : List Nat → List Char
  | [] => []
  | b :: bs => hexDigitCharU (b / 16 % 16) :: hexDigitCharU (b % 16) :: hexChars bs

/-- One pass of the marking loop (lines 166-171) for a single match whose
`start_idx` is `start`: set each of the eight characters
`start, start+1, ..., start+7` to `'X'`, guarded by the list length. -/
def maskOne (hc : List Char) (start : Nat) : List Char :=
  (List.range 8).foldl
    (fun hc j => if start + j < hc.length then hc.set (start + j) 'X' else hc) hc

/-- The full marking loop over all matches (lines 166-171). -/
def maskAll (hc : List Char) (patch_offsets : List MemMatch) : List Char :=
  patch_offsets.foldl (fun hc patch => maskOne hc (patch.byte_offset * 2)) hc

/-- The regrouping loop (lines 174-179): pair consecutive characters into
two-character strings; a trailing lone character (impossible here, since
`hex_chars` always has even length) would be padded with `'0'`. -/
def groupPairs : List Char → List String
  | [] => []
  | [c] => [String.mk [c, '0']]
  | c1 :: c2 :: rest => String.mk [c1, c2] :: groupPairs rest

/-- The `result` list of `create_patched_bytes_string` just before joining. -/
def patched_groups (instruction_bytes : List Nat) (patch_offsets : List MemMatch) :
    List String :=
  groupPairs (maskAll (hexChars instruction_bytes) patch_offsets)

/-- `create_patched_bytes_string` (lines 149-181): hex dump of the
instruction bytes with every matched 4-byte span overwritten by `'X'`
characters, grouped two characters per byte, joined with single spaces. -/
def create_patched_bytes_string (instruction_bytes : List Nat)
    (patch_offsets : List MemMatch) : String :=
  String.intercalate " " (patched_groups instruction_bytes patch_offsets)

/-- Specification-side rendering of one unmasked byte: its upper-case
two-hex-digit encoding. -/
def byteHexSpec (b : Nat) : String :=
  String.mk [hexDigitCharU (b / 16), hexDigitCharU (b % 16)]

/-- Specification-side description of the masked-bytes string: one
two-character group per byte of `rawBytes`, `"XX"` exactly when the byte
index lies in the union of the matches' 4-byte spans, joined by single
spaces. -/
def maskedBytesSpec (bs : List Nat) (ps : List MemMatch) : String :=
  String.intercalate " " ((List.range bs.length).map (fun j =>
    if ∃ p ∈ ps, p.byte_offset ≤ j ∧ j < p.byte_offset + 4 then "XX"
    else byteHexSpec (bs.getD j 0)))

/-- One decoded instruction as consumed from the external decoder: the
fields of a capstone `insn` the script reads (`insn.size`, the true encoded
length, and `insn.address`, the decoder-reported instruction address). -/
structure DecodedInsn where
  size : Nat
  address : Nat
deriving DecidableEq

/-- The external decoder capability: given the byte window and the address
it starts at, `list(md.disasm(code, addr, count=1))` either raises
(`Except.error`), yields no instruction (`Except.ok none`), or yields one
instruction. -/
abbrev Decoder := List Nat → Nat → Except Unit (Option DecodedInsn)

/-- The configuration consumed by `main`: `args.image_base`,
`args.memory_base`, `args.bytes_to_read`, `args.max_offset_range`. -/
structure Config where
  image_base : Nat
  memory_base : Int
  bytes_to_read : Nat
  max_offset_range : Int
deriving DecidableEq

/-- One entry of the `instructions` mapping:
`{bytes = ..., offset = ...}` (lines 311-314). -/
structure Descriptor where
  bytes : String
  offset : String
deriving DecidableEq

/-- The four terminal outcomes of processing one candidate address in the
loop of `main` (lines 273-321). -/
inductive Outcome where
  | described (addr_key : String) (descriptor : Descriptor)
  | outOfRange
  | decodeFailed
  | decodeError
deriving DecidableEq

/-- The bare category of an outcome, with the descriptor data erased. -/
inductive OutcomeKind where
  | described
  | outOfRange
  | decodeFailed
  | decodeError
deriving DecidableEq

/-- Category of an `Outcome`. -/
def kindOf : Outcome → OutcomeKind
  | Outcome.described _ _ => OutcomeKind.described
  | Outcome.outOfRange => OutcomeKind.outOfRange
  | Outcome.decodeFailed => OutcomeKind.decodeFailed
  | Outcome.decodeError => OutcomeKind.decodeError

/-- The byte window read for one candidate address (line 283):
`binary_data[offset : offset + bytes_to_read]`, only ever evaluated after
the bounds check has established `offset ≥ 0`. -/
def codeWindow (binary : List Nat) (cfg : Config) (addr : Nat) : List Nat :=
  (binary.drop (addr - cfg.image_base)).take cfg.bytes_to_read

/-- The body of the per-address loop of `main` (lines 277-321): bounds
check, decode via the external decoder, truncate to the reported length,
scan, mask, and build the descriptor keyed by the decoder-reported address. -/
def processAddress (md : Decoder) (binary : List Nat) (cfg : Config) (addr : Nat) :
    Outcome :=
  let offset : Int := (addr : Int) - (cfg.image_base : Int)
  if offset < 0 ∨ offset + (cfg.bytes_to_read : Int) > (binary.length : Int) then
    Outcome.outOfRange
  else
    let code := codeWindow binary cfg addr
    match md code addr with
    | Except.error _ => Outcome.decodeError
    | Except.ok none => Outcome.decodeFailed
    | Except.ok (some insn) =>
      let instruction_bytes := code.take insn.size
      let patch_offsets :=
        find_memory_references_in_bytes instruction_bytes cfg.memory_base
          cfg.max_offset_range
      let patched_bytes := create_patched_bytes_string instruction_bytes patch_offsets
      let main_offset : Int :=
        match patch_offsets with
        | [] => 0
        | p :: _ => p.memory_offset
      Outcome.described ("0x" ++ hexPad8 insn.address)
        { bytes := patched_bytes, offset := formatOffset main_offset }

/-- Python-`dict` insertion on an insertion-ordered association list:
`instructions[addr_key] = value` overwrites in place when the key is
present and appends otherwise. -/
def dictInsert (m : List (String × Descriptor)) (k : String) (v : Descriptor) :
    List (String × Descriptor) :=
  if m.any (fun kv => kv.1 == k) then
    m.map (fun kv => if kv.1 == k then (k, v) else kv)
  else m ++ [(k, v)]

/-- The accumulating state of the loop of `main` (lines 268-271):
`instructions`, `successful_disassemblies`, `out_of_range_addresses`,
`failed_disassemblies`. -/
structure Stats where
  instructions : List (String × Descriptor)
  successful_disassemblies : Nat
  out_of_range_addresses : Nat
  failed_disassemblies : Nat
deriving DecidableEq

/-- One iteration of the loop of `main`: dispatch on the outcome of the
current address and update the accumulators (lines 277-321).  Note that
both `decodeFailed` (empty decode result, line 289) and `decodeError`
(caught exception, line 320) increment the same counter
`failed_disassemblies`. -/
def step (md : Decoder) (binary : List Nat) (cfg : Config) (s : Stats) (addr : Nat) :
    Stats :=
  match processAddress md binary cfg addr with
  | Outcome.described k d =>
    { s with instructions := dictInsert s.instructions k d
             successful_disassemblies := s.successful_disassemblies + 1 }
  | Outcome.outOfRange =>
    { s with out_of_range_addresses := s.out_of_range_addresses + 1 }
  | Outcome.decodeFailed =>
    { s with failed_disassemblies := s.failed_disassemblies + 1 }
  | Outcome.decodeError =>
    { s with failed_disassemblies := s.failed_disassemblies + 1 }

/-- The whole loop of `main` over the candidate address list, starting from
the empty accumulators of lines 268-271. -/
def runBatch (md : Decoder) (binary : List Nat) (cfg : Config) (addresses : List Nat) :
    Stats :=
  addresses.foldl (step md binary cfg) { instructions := []
                                         successful_disassemblies := 0
                                         out_of_range_addresses := 0
                                         failed_disassemblies := 0 }

/-- The `total_instructions` metadata field (line 338): the count of
successful disassemblies. -/
def total_instructions (s : Stats) : Nat :=
  s.successful_disassemblies

/-- The success-rate report of line 329:
`f"...{successful / len(addresses) * 100}..." if addresses else "N/A"` —
`none` models the `"N/A"` branch, taken exactly when the candidate list is
empty, so the division is never evaluated with a zero denominator. -/
def success_rate (s : Stats) (addresses : List Nat) : Option ℚ :=
  if addresses.isEmpty then none
  else some ((s.successful_disassemblies : ℚ) / (addresses.length : ℚ) * 100)

/-- Hexadecimal-digit test for the text-reference scanner. -/
def isHexDigitChar (c : Char) : Bool :=
  (('0' ≤ c) && (c ≤ '9')) || (('a' ≤ c) && (c ≤ 'f')) || (('A' ≤ c) && (c ≤ 'F'))

/-- Value of one hexadecimal digit character. -/
def hexCharVal (c : Char) : Nat :=
  if ('0' ≤ c) && (c ≤ '9') then c.toNat - 48
  else if ('a' ≤ c) && (c ≤ 'f') then c.toNat - 87
  else if ('A' ≤ c) && (c ≤ 'F') then c.toNat - 55
  else 0

/-- Unsigned value of a string of hexadecimal digit characters. -/
def parseHexDigits (ds : List Char) : Nat :=
  ds.foldl (fun a c => a * 16 + hexCharVal c) 0

/-- Modelled from the spec (§4.2, §3 RelocationDescriptor): the placeholder
token substituted for an in-range hexadecimal literal of value `v` — the
marker `<memory_base>` followed by the signed offset, `+0xHEX` for a
non-negative offset and `-0xHEX` for a negative one. -/
def placeholderFor (referenceBase : Int) (v : Nat) : String :=
  "<memory_base>" ++
    (if 0 ≤ (v : Int) - referenceBase then "+0x" ++ hexUpper ((v : Int) - referenceBase).toNat
     else "-0x" ++ hexUpper ((v : Int) - referenceBase).natAbs)

/-- Modelled from the spec (§4.2 Text-Reference Scanner; the implementing
code is not under `src/`): left-to-right, non-overlapping scan of the
operand text for hexadecimal literals (`0x` followed by one or more hex
digits); an in-range literal is replaced whole by its placeholder token, an
out-of-range one is emitted unchanged, and scanning resumes after the
literal.  The first argument is a structural-recursion budget; since every
step consumes at least one character, a budget of the text's length never
runs out. -/
def substHexAux (referenceBase maxRange : Int) : Nat → List Char → List Char
  | 0, l => l
  | _ + 1, [] => []
  | fuel + 1, c :: cs =>
    if c = '0' ∧ cs.head? = some 'x' ∧ cs.tail.takeWhile isHexDigitChar ≠ [] then
      let ds := cs.tail.takeWhile isHexDigitChar
      let rest := cs.tail.dropWhile isHexDigitChar
      let v := parseHexDigits ds
      if |(v : Int) - referenceBase| ≤ maxRange then
        (placeholderFor referenceBase v).toList ++ substHexAux referenceBase maxRange fuel rest
      else '0' :: 'x' :: (ds ++ substHexAux referenceBase maxRange fuel rest)
    else c :: substHexAux referenceBase maxRange fuel cs

/-- Modelled from the spec (§4.2): the Text-Reference Scanner's global
substitution over an operand-text string, as a `List Char` transformer. -/
def substitute_hex_literals (referenceBase maxRange : Int) (text : List Char) :
    List Char :=
  substHexAux referenceBase maxRange text.length text

/-- Specification-side decomposition of an operand-text string: a token is
either one ordinary character or one maximal hexadecimal literal
`0x<digits>`.  Any string is a concatenation of such tokens; the
well-formedness condition `wfTokens` below pins the decomposition to the
one the left-to-right scan sees. -/
inductive OperandToken where
  | rawChar (c : Char)
  | hexLit (ds : List Char)
deriving DecidableEq

/-- The text a single token stands for: `c` itself, or `0x` followed by the
literal's digits. -/
def renderToken : OperandToken → List Char
  | OperandToken.rawChar c => [c]
  | OperandToken.hexLit ds => '0' :: 'x' :: ds

/-- The operand text a token list stands for. -/
def renderTokens : List OperandToken → List Char
  | [] => []
  | t :: ts => renderToken t ++ renderTokens ts

/-- Specification-side substituted form of one token (§4.2): an ordinary
character is kept verbatim; a literal is replaced whole by its placeholder
token when its value is within `maxRange` of `referenceBase` and kept
verbatim otherwise. -/
def substToken (referenceBase maxRange : Int) : OperandToken → List Char
  | OperandToken.rawChar c => [c]
  | OperandToken.hexLit ds =>
    if |((parseHexDigits ds : Nat) : Int) - referenceBase| ≤ maxRange then
      (placeholderFor referenceBase (parseHexDigits ds)).toList
    else '0' :: 'x' :: ds

/-- Specification-side substituted form of a whole token list: every
literal is handled independently by `substToken`, all other text is kept. -/
def substTokens (referenceBase maxRange : Int) : List OperandToken → List Char
  | [] => []
  | t :: ts => substToken referenceBase maxRange t ++ substTokens referenceBase maxRange ts

/-- Whether a character list begins with a hexadecimal literal (`0x`
followed by at least one hex digit) — the trigger condition of the
left-to-right scan. -/
def startsHexLit : List Char → Bool
  | [] => false
  | c :: cs =>
    decide (c = '0' ∧ cs.head? = some 'x' ∧ cs.tail.takeWhile isHexDigitChar ≠ [])

/-- Well-formedness of a token decomposition: each `hexLit` holds one or
more hex digits and is maximal (the following text does not begin with a
hex digit), and no `rawChar` position begins a literal — i.e. the
decomposition marks as literals exactly the substrings the scan matches. -/
def wfTokens : List OperandToken → Bool
  | [] => true
  | OperandToken.rawChar c :: ts =>
    !startsHexLit (c :: renderTokens ts) && wfTokens ts
  | OperandToken.hexLit ds :: ts =>
    !ds.isEmpty && ds.all isHexDigitChar &&
      ((renderTokens ts).takeWhile isHexDigitChar).isEmpty && wfTokens ts

lemma filterMap_if {α β : Type} (p : α → Prop) [DecidablePred p] (g : α → β)
    (l : List α) :
    l.filterMap (fun a => if p a then some (g a) else none) =
      (l.filter (fun a => p a)).map g := by
  induction l with
  | nil => rfl
  | cons a l ih =>
    by_cases h : p a <;> simp [List.filterMap_cons, List.filter_cons, h, ih]

lemma find_eq_map_filter (bs : List Nat) (base range : Int) :
    find_memory_references_in_bytes bs base range =
      ((List.range (bs.length - 3)).filter
          (fun i => |(unpackLE32 ((bs.drop i).take 4) : Int) - base| ≤ range)).map
        (fun i => { byte_offset := i
                    memory_offset := (unpackLE32 ((bs.drop i).take 4) : Int) - base
                    original_addr := unpackLE32 ((bs.drop i).take 4) }) := by
  unfold find_memory_references_in_bytes
  generalize List.range (bs.length - 3) = l
  induction l with
  | nil => rfl
  | cons a l ih =>
    by_cases h : |(unpackLE32 ((bs.drop a).take 4) : Int) - base| ≤ range <;>
      simp [List.filterMap_cons, List.filter_cons, h, ih]

lemma drop_take_four (bs : List Nat) (i : Nat) (h : i + 4 ≤ bs.length) :
    (bs.drop i).take 4 =
      [bs.getD i 0, bs.getD (i + 1) 0, bs.getD (i + 2) 0, bs.getD (i + 3) 0] := by
  have h0 : i < bs.length := by omega
  have h1 : i + 1 < bs.length := by omega
  have h2 : i + 2 < bs.length := by omega
  have h3 : i + 3 < bs.length := by omega
  rw [List.drop_eq_getElem_cons h0, List.drop_eq_getElem_cons h1,
      List.drop_eq_getElem_cons h2, List.drop_eq_getElem_cons h3,
      List.getD_eq_getElem bs 0 h0, List.getD_eq_getElem bs 0 h1,
      List.getD_eq_getElem bs 0 h2, List.getD_eq_getElem bs 0 h3]
  rfl

lemma unpackLE32_window (bs : List Nat) (i : Nat) (h : i + 4 ≤ bs.length) :
    unpackLE32 ((bs.drop i).take 4) = leValueAt bs i := by
  rw [drop_take_four bs i h]; rfl

/-- C2: for every byte sequence `rawBytes` of length `L` and every
`referenceBase` and `maxRange`, the Byte-Reference Scanner returns exactly
the list of positions `i ∈ [0, L-4]` whose little-endian 32-bit value `v`
at `rawBytes[i..i+4)` satisfies `|v - referenceBase| ≤ maxRange`, ordered
by ascending `i`, each match recording `byteOffset = i`,
`embeddedAddress = v`, and `signedOffset = v - referenceBase`; overlapping
matches are all retained (every qualifying position appears), and if
`L < 4` the result is the empty list. -/
theorem C2_scanner_characterization (bs : List Nat) (base range : Int) :
    (∀ m, m ∈ find_memory_references_in_bytes bs base range ↔
        m.byte_offset + 4 ≤ bs.length ∧
        |(leValueAt bs m.byte_offset : Int) - base| ≤ range ∧
        m.original_addr = leValueAt bs m.byte_offset ∧
        m.memory_offset = (leValueAt bs m.byte_offset : Int) - base) ∧
    List.Pairwise (fun a b => a.byte_offset < b.byte_offset)
      (find_memory_references_in_bytes bs base range) ∧
    (bs.length < 4 → find_memory_references_in_bytes bs base range = []) := by
  rw [find_eq_map_filter]
  refine ⟨fun m => ?_, ?_, fun h4 => ?_⟩
  · constructor
    · intro hm
      simp only [List.mem_map, List.mem_filter, List.mem_range,
        decide_eq_true_eq] at hm
      obtain ⟨i, ⟨hi, hcond⟩, rfl⟩ := hm
      have hle : i + 4 ≤ bs.length := by omega
      rw [unpackLE32_window bs i hle] at hcond
      refine ⟨hle, hcond, unpackLE32_window bs i hle, ?_⟩
      show (unpackLE32 ((bs.drop i).take 4) : Int) - base = (leValueAt bs i : Int) - base
      rw [unpackLE32_window bs i hle]
    · obtain ⟨bo, mo, oa⟩ := m
      rintro ⟨hlen, hcond, hoa, hmo⟩
      simp only at hlen hcond hoa hmo
      simp only [List.mem_map, List.mem_filter, List.mem_range, decide_eq_true_eq]
      refine ⟨bo, ⟨by omega, ?_⟩, ?_⟩
      · rw [unpackLE32_window bs bo hlen]; exact hcond
      · rw [unpackLE32_window bs bo hlen, hoa, hmo]
  · rw [List.pairwise_map]
    exact List.Pairwise.filter _ (List.pairwise_lt_range _)
  · have h0 : bs.length - 3 = 0 := by omega
    rw [h0]
    rfl

/-- Witness for C2 at a concrete input: a three-byte sequence is shorter
than four bytes and scans to the empty match list. -/
theorem C2_scanner_characterization_witness :
    ([1, 2, 3] : List Nat).length < 4 ∧
      find_memory_references_in_bytes [1, 2, 3] 0 0 = [] :=
  ⟨by decide, (C2_scanner_characterization [1, 2, 3] 0 0).2.2 (by decide)⟩

lemma getD_set (l : List Char) (i j : Nat) (a d : Char) :
    (l.set i a).getD j d = if i = j ∧ j < l.length then a else l.getD j d := by
  rcases Nat.lt_or_ge j l.length with hj | hj
  · have hj2 : j < (l.set i a).length := by simpa using hj
    rw [List.getD_eq_getElem _ _ hj2, List.getElem_set, List.getD_eq_getElem _ _ hj]
    by_cases hij : i = j
    · rw [if_pos hij, if_pos ⟨hij, hj⟩]
    · rw [if_neg hij, if_neg fun hh => hij hh.1]
  · rw [List.getD_eq_default _ _ (by simpa using hj), List.getD_eq_default _ _ hj,
      if_neg (by omega)]

lemma maskRange_length (start : Nat) : ∀ (n : Nat) (hc : List Char),
    ((List.range n).foldl
        (fun hc j => if start + j < hc.length then hc.set (start + j) 'X' else hc)
        hc).length = hc.length := by
  intro n
  induction n with
  | zero => intro hc; rfl
  | succ n ih =>
    intro hc
    rw [List.range_succ, List.foldl_append]
    simp only [List.foldl_cons, List.foldl_nil]
    split
    · rw [List.length_set]; exact ih hc
    · exact ih hc

lemma maskRange_getD (start : Nat) : ∀ (n : Nat) (hc : List Char) (j : Nat) (d : Char),
    ((List.range n).foldl
        (fun hc k => if start + k < hc.length then hc.set (start + k) 'X' else hc)
        hc).getD j d =
      if start ≤ j ∧ j < start + n ∧ j < hc.length then 'X' else hc.getD j d := by
  intro n
  induction n with
  | zero =>
    intro hc j d
    simp only [List.range_zero, List.foldl_nil]
    rw [if_neg (by omega)]
  | succ n ih =>
    intro hc j d
    rw [List.range_succ, List.foldl_append]
    simp only [List.foldl_cons, List.foldl_nil]
    have hlen := maskRange_length start n hc
    split
    · rw [getD_set, ih hc j d, hlen]
      split_ifs <;> first | rfl | omega
    · rw [ih hc j d]
      rename_i hcnd
      rw [hlen] at hcnd
      split_ifs <;> first | rfl | omega

lemma maskOne_length (hc : List Char) (start : Nat) :
    (maskOne hc start).length = hc.length :=
  maskRange_length start 8 hc

lemma maskOne_getD (hc : List Char) (start j : Nat) (d : Char) :
    (maskOne hc start).getD j d =
      if start ≤ j ∧ j < start + 8 ∧ j < hc.length then 'X' else hc.getD j d :=
  maskRange_getD start 8 hc j d

lemma maskAll_length : ∀ (ps : List MemMatch) (hc : List Char),
    (maskAll hc ps).length = hc.length := by
  intro ps
  induction ps with
  | nil => intro hc; rfl
  | cons p ps ih =>
    intro hc
    have hstep : maskAll hc (p :: ps) = maskAll (maskOne hc (p.byte_offset * 2)) ps := by
      simp only [maskAll, List.foldl_cons]
    rw [hstep, ih, maskOne_length]

lemma maskAll_getD : ∀ (ps : List MemMatch) (hc : List Char) (j : Nat) (d : Char),
    (maskAll hc ps).getD j d =
      if (∃ p ∈ ps, p.byte_offset * 2 ≤ j ∧ j < p.byte_offset * 2 + 8) ∧ j < hc.length
      then 'X' else hc.getD j d := by
  intro ps
  induction ps with
  | nil =>
    intro hc j d
    simp only [maskAll, List.foldl_nil]
    rw [if_neg (by simp)]
  | cons p ps ih =>
    intro hc j d
    have hstep : maskAll hc (p :: ps) = maskAll (maskOne hc (p.byte_offset * 2)) ps := by
      simp only [maskAll, List.foldl_cons]
    rw [hstep, ih, maskOne_length, maskOne_getD]
    by_cases hj : j < hc.length
    · by_cases hp : p.byte_offset * 2 ≤ j ∧ j < p.byte_offset * 2 + 8
      · by_cases hex : ∃ q ∈ ps, q.byte_offset * 2 ≤ j ∧ j < q.byte_offset * 2 + 8 <;>
          simp [List.exists_mem_cons_iff, hj, hp, hex]
      · by_cases hex : ∃ q ∈ ps, q.byte_offset * 2 ≤ j ∧ j < q.byte_offset * 2 + 8 <;>
          simp [List.exists_mem_cons_iff, hj, hp, hex]
    · simp [hj]

lemma hexChars_length : ∀ (bs : List Nat), (hexChars bs).length = 2 * bs.length := by
  intro bs
  induction bs with
  | nil => rfl
  | cons b bs ih => simp [hexChars, ih]; omega

lemma hexChars_getD_even : ∀ (bs : List Nat) (j : Nat) (d : Char), j < bs.length →
    (hexChars bs).getD (2 * j) d = hexDigitCharU (bs.getD j 0 / 16 % 16) := by
  intro bs
  induction bs with
  | nil => intro j d h; simp at h
  | cons b bs ih =>
    intro j d h
    match j with
    | 0 => rfl
    | j + 1 =>
      have h2 : 2 * (j + 1) = 2 * j + 1 + 1 := by ring
      rw [h2, hexChars, List.getD_cons_succ, List.getD_cons_succ, List.getD_cons_succ]
      exact ih j d (by simpa using Nat.lt_of_succ_lt_succ h)

lemma hexChars_getD_odd : ∀ (bs : List Nat) (j : Nat) (d : Char), j < bs.length →
    (hexChars bs).getD (2 * j + 1) d = hexDigitCharU (bs.getD j 0 % 16) := by
  intro bs
  induction bs with
  | nil => intro j d h; simp at h
  | cons b bs ih =>
    intro j d h
    match j with
    | 0 => rfl
    | j + 1 =>
      have h2 : 2 * (j + 1) + 1 = 2 * j + 1 + 1 + 1 := by ring
      rw [h2, hexChars, List.getD_cons_succ, List.getD_cons_succ, List.getD_cons_succ]
      exact ih j d (by simpa using Nat.lt_of_succ_lt_succ h)

lemma groupPairs_length : ∀ (l : List Char), (groupPairs l).length = (l.length + 1) / 2 := by
  intro l
  induction l using groupPairs.induct with
  | case1 => rfl
  | case2 c => simp [groupPairs]
  | case3 c1 c2 rest ih =>
    have hstep : (groupPairs (c1 :: c2 :: rest)).length = (groupPairs rest).length + 1 := by
      simp [groupPairs]
    rw [hstep, ih]
    simp only [List.length_cons]
    omega

lemma groupPairs_getD : ∀ (l : List Char) (j : Nat), 2 * j + 1 < l.length →
    (groupPairs l).getD j "" = String.mk [l.getD (2 * j) 'Z', l.getD (2 * j + 1) 'Z'] := by
  intro l
  induction l using groupPairs.induct with
  | case1 => intro j h; simp at h
  | case2 c =>
    intro j h
    simp only [List.length_cons, List.length_nil] at h
    omega
  | case3 c1 c2 rest ih =>
    intro j h
    match j with
    | 0 => rfl
    | j + 1 =>
      have h2 : 2 * (j + 1) = 2 * j + 1 + 1 := by ring
      have h3 : 2 * (j + 1) + 1 = 2 * j + 1 + 1 + 1 := by ring
      show (groupPairs rest).getD j "" = _
      rw [h3, h2, List.getD_cons_succ, List.getD_cons_succ, List.getD_cons_succ,
        List.getD_cons_succ]
      exact ih j (by simp only [List.length_cons] at h; omega)

lemma patched_groups_eq (bs : List Nat) (ps : List MemMatch)
    (hb : ∀ b ∈ bs, b < 256) :
    patched_groups bs ps = (List.range bs.length).map (fun j =>
      if ∃ p ∈ ps, p.byte_offset ≤ j ∧ j < p.byte_offset + 4 then "XX"
      else byteHexSpec (bs.getD j 0)) := by
  have hmlen : (maskAll (hexChars bs) ps).length = 2 * bs.length := by
    rw [maskAll_length, hexChars_length]
  have hglen : (patched_groups bs ps).length = bs.length := by
    show (groupPairs (maskAll (hexChars bs) ps)).length = bs.length
    rw [groupPairs_length, hmlen]
    omega
  apply List.ext_getElem
  · rw [hglen]; simp
  · intro j h1 h2
    rw [List.getElem_map, List.getElem_range]
    have hj : j < bs.length := by rwa [hglen] at h1
    rw [← List.getD_eq_getElem _ "" h1]
    show (groupPairs (maskAll (hexChars bs) ps)).getD j "" = _
    rw [groupPairs_getD _ j (by rw [hmlen]; omega),
      maskAll_getD ps (hexChars bs) (2 * j) 'Z',
      maskAll_getD ps (hexChars bs) (2 * j + 1) 'Z',
      hexChars_getD_even bs j 'Z' hj, hexChars_getD_odd bs j 'Z' hj]
    by_cases hmask : ∃ p ∈ ps, p.byte_offset ≤ j ∧ j < p.byte_offset + 4
    · obtain ⟨p, hp, hp1, hp2⟩ := hmask
      rw [if_pos ⟨⟨p, hp, by omega, by omega⟩, by rw [hexChars_length]; omega⟩,
        if_pos ⟨⟨p, hp, by omega, by omega⟩, by rw [hexChars_length]; omega⟩,
        if_pos ⟨p, hp, hp1, hp2⟩]
    · have hneg1 : ¬((∃ p ∈ ps, p.byte_offset * 2 ≤ 2 * j ∧
          2 * j < p.byte_offset * 2 + 8) ∧ 2 * j < (hexChars bs).length) := by
        rintro ⟨⟨p, hp, hq1, hq2⟩, _⟩
        exact hmask ⟨p, hp, by omega, by omega⟩
      have hneg2 : ¬((∃ p ∈ ps, p.byte_offset * 2 ≤ 2 * j + 1 ∧
          2 * j + 1 < p.byte_offset * 2 + 8) ∧ 2 * j + 1 < (hexChars bs).length) := by
        rintro ⟨⟨p, hp, hq1, hq2⟩, _⟩
        exact hmask ⟨p, hp, by omega, by omega⟩
      rw [if_neg hneg1, if_neg hneg2, if_neg hmask]
      have hblt : bs.getD j 0 < 256 := by
        rw [List.getD_eq_getElem bs 0 hj]
        exact hb _ (bs.getElem_mem hj)
      have hnib : bs.getD j 0 / 16 % 16 = bs.getD j 0 / 16 := by omega
      rw [hnib]
      rfl

/-- C3: for every `rawBytes` and match list produced by the Byte-Reference
Scanner, the masked-bytes string is the sequence of `len(rawBytes)`
two-character groups separated by single spaces, where a group at byte
index `j` is the marker `"XX"` if `j` lies in the union of any match's
4-byte span `[byteOffset, byteOffset+4)`, and otherwise is the upper-case
two-hex-digit encoding of `rawBytes[j]`. -/
theorem C3_masked_bytes_characterization (bs : List Nat) (base range : Int)
    (hb : ∀ b ∈ bs, b < 256) :
    create_patched_bytes_string bs (find_memory_references_in_bytes bs base range) =
      maskedBytesSpec bs (find_memory_references_in_bytes bs base range) := by
  unfold create_patched_bytes_string maskedBytesSpec
  rw [patched_groups_eq bs _ hb]

/-- Witness for C3 at the spec's end-to-end example window
`8D 86 64 40 CF 01` with `referenceBase = 0x01CF4064`,
`maxRange = 0x10000`. -/
theorem C3_masked_bytes_characterization_witness :
    (∀ b ∈ ([0x8D, 0x86, 0x64, 0x40, 0xCF, 0x01] : List Nat), b < 256) ∧
      create_patched_bytes_string [0x8D, 0x86, 0x64, 0x40, 0xCF, 0x01]
          (find_memory_references_in_bytes [0x8D, 0x86, 0x64, 0x40, 0xCF, 0x01]
            0x01CF4064 0x10000) =
        maskedBytesSpec [0x8D, 0x86, 0x64, 0x40, 0xCF, 0x01]
          (find_memory_references_in_bytes [0x8D, 0x86, 0x64, 0x40, 0xCF, 0x01]
            0x01CF4064 0x10000) :=
  ⟨by decide, C3_masked_bytes_characterization _ 0x01CF4064 0x10000 (by decide)⟩

lemma codeWindow_length (binary : List Nat) (cfg : Config) (addr : Nat)
    (h : ¬((addr : Int) - (cfg.image_base : Int) < 0 ∨
        (addr : Int) - (cfg.image_base : Int) + (cfg.bytes_to_read : Int) >
          (binary.length : Int))) :
    (codeWindow binary cfg addr).length = cfg.bytes_to_read := by
  unfold codeWindow
  rw [List.length_take, List.length_drop]
  push_neg at h
  omega

lemma processAddress_out_of_range (md : Decoder) (binary : List Nat) (cfg : Config)
    (addr : Nat)
    (h : (addr : Int) - (cfg.image_base : Int) < 0 ∨
        (addr : Int) - (cfg.image_base : Int) + (cfg.bytes_to_read : Int) >
          (binary.length : Int)) :
    processAddress md binary cfg addr = Outcome.outOfRange := by
  simp only [processAddress]
  rw [if_pos h]

lemma processAddress_described (md : Decoder) (binary : List Nat) (cfg : Config)
    (addr : Nat) (insn : DecodedInsn)
    (hin : ¬((addr : Int) - (cfg.image_base : Int) < 0 ∨
        (addr : Int) - (cfg.image_base : Int) + (cfg.bytes_to_read : Int) >
          (binary.length : Int)))
    (hmd : md (codeWindow binary cfg addr) addr = Except.ok (some insn)) :
    processAddress md binary cfg addr =
      Outcome.described ("0x" ++ hexPad8 insn.address)
        { bytes :=
            create_patched_bytes_string ((codeWindow binary cfg addr).take insn.size)
              (find_memory_references_in_bytes
                ((codeWindow binary cfg addr).take insn.size) cfg.memory_base
                cfg.max_offset_range)
          offset :=
            formatOffset
              (match
                  find_memory_references_in_bytes
                    ((codeWindow binary cfg addr).take insn.size) cfg.memory_base
                    cfg.max_offset_range with
                | [] => 0
                | p :: _ => p.memory_offset) } := by
  simp only [processAddress]
  rw [if_neg hin, hmd]

lemma processAddress_decode_failed (md : Decoder) (binary : List Nat) (cfg : Config)
    (addr : Nat)
    (hin : ¬((addr : Int) - (cfg.image_base : Int) < 0 ∨
        (addr : Int) - (cfg.image_base : Int) + (cfg.bytes_to_read : Int) >
          (binary.length : Int)))
    (hmd : md (codeWindow binary cfg addr) addr = Except.ok none) :
    processAddress md binary cfg addr = Outcome.decodeFailed := by
  simp only [processAddress]
  rw [if_neg hin, hmd]

lemma processAddress_decode_error (md : Decoder) (binary : List Nat) (cfg : Config)
    (addr : Nat) (e : Unit)
    (hin : ¬((addr : Int) - (cfg.image_base : Int) < 0 ∨
        (addr : Int) - (cfg.image_base : Int) + (cfg.bytes_to_read : Int) >
          (binary.length : Int)))
    (hmd : md (codeWindow binary cfg addr) addr = Except.error e) :
    processAddress md binary cfg addr = Outcome.decodeError := by
  simp only [processAddress]
  rw [if_neg hin, hmd]

lemma runFrom_counts (md : Decoder) (binary : List Nat) (cfg : Config) :
    ∀ (addrs : List Nat) (s : Stats),
      (addrs.foldl (step md binary cfg) s).successful_disassemblies =
          s.successful_disassemblies +
            (addrs.map (fun a => kindOf (processAddress md binary cfg a))).count
              OutcomeKind.described ∧
      (addrs.foldl (step md binary cfg) s).out_of_range_addresses =
          s.out_of_range_addresses +
            (addrs.map (fun a => kindOf (processAddress md binary cfg a))).count
              OutcomeKind.outOfRange ∧
      (addrs.foldl (step md binary cfg) s).failed_disassemblies =
          s.failed_disassemblies +
            ((addrs.map (fun a => kindOf (processAddress md binary cfg a))).count
                OutcomeKind.decodeFailed +
              (addrs.map (fun a => kindOf (processAddress md binary cfg a))).count
                OutcomeKind.decodeError) := by
  intro addrs
  induction addrs with
  | nil => intro s; simp
  | cons a addrs ih =>
    intro s
    simp only [List.foldl_cons, List.map_cons, List.count_cons]
    obtain ⟨ih1, ih2, ih3⟩ := ih (step md binary cfg s a)
    refine ⟨?_, ?_, ?_⟩
    · rw [ih1]
      cases ho : processAddress md binary cfg a <;> (simp [step, ho, kindOf]; try omega)
    · rw [ih2]
      cases ho : processAddress md binary cfg a <;> (simp [step, ho, kindOf]; try omega)
    · rw [ih3]
      cases ho : processAddress md binary cfg a <;> (simp [step, ho, kindOf]; try omega)

lemma patched_groups_length (bs : List Nat) (ps : List MemMatch) :
    (patched_groups bs ps).length = bs.length := by
  show (groupPairs (maskAll (hexChars bs) ps)).length = bs.length
  rw [groupPairs_length, maskAll_length, hexChars_length]
  omega

/-- C1: for every decoded instruction, all relocation math uses only the
first `encodedLength` bytes of the read window — `rawBytes` is truncated to
the decoder-reported instruction length (`code[:insn.size]`) before
scanning and masking — so the byte-masked descriptor's hex dump contains
exactly `encodedLength` byte-groups (2 for a 2-byte instruction in a
15-byte window), not the window's length. -/
theorem C1_truncation_to_encoded_length (md : Decoder) (binary : List Nat)
    (cfg : Config) (addr : Nat) (insn : DecodedInsn)
    (hin : ¬((addr : Int) - (cfg.image_base : Int) < 0 ∨
        (addr : Int) - (cfg.image_base : Int) + (cfg.bytes_to_read : Int) >
          (binary.length : Int)))
    (hmd : md (codeWindow binary cfg addr) addr = Except.ok (some insn))
    (hle : insn.size ≤ cfg.bytes_to_read) :
    processAddress md binary cfg addr =
        Outcome.described ("0x" ++ hexPad8 insn.address)
          { bytes :=
              create_patched_bytes_string ((codeWindow binary cfg addr).take insn.size)
                (find_memory_references_in_bytes
                  ((codeWindow binary cfg addr).take insn.size) cfg.memory_base
                  cfg.max_offset_range)
            offset :=
              formatOffset
                (match
                    find_memory_references_in_bytes
                      ((codeWindow binary cfg addr).take insn.size) cfg.memory_base
                      cfg.max_offset_range with
                  | [] => 0
                  | p :: _ => p.memory_offset) } ∧
      ((codeWindow binary cfg addr).take insn.size).length = insn.size ∧
      (patched_groups ((codeWindow binary cfg addr).take insn.size)
          (find_memory_references_in_bytes
            ((codeWindow binary cfg addr).take insn.size) cfg.memory_base
            cfg.max_offset_range)).length = insn.size := by
  have hwl : ((codeWindow binary cfg addr).take insn.size).length = insn.size := by
    rw [List.length_take, codeWindow_length binary cfg addr hin]
    omega
  exact ⟨processAddress_described md binary cfg addr insn hin hmd, hwl,
    by rw [patched_groups_length, hwl]⟩

/-- Witness for C1: a 15-byte window whose decoder reports
`encodedLength = 2` yields the two-group dump `"8D 86"`. -/
theorem C1_truncation_to_encoded_length_witness :
    (2 : Nat) ≤ 15 ∧
      processAddress (fun _ _ => Except.ok (some ⟨2, 0⟩))
          [0x8D, 0x86, 0, 0, 0, 0, 0, 0, 0, 0, 0, 0, 0, 0, 0] ⟨0, 0, 15, 0⟩ 0 =
        Outcome.described "0x00000000" { bytes := "8D 86", offset := "0x0" } ∧
      (patched_groups
          ((codeWindow [0x8D, 0x86, 0, 0, 0, 0, 0, 0, 0, 0, 0, 0, 0, 0, 0]
              ⟨0, 0, 15, 0⟩ 0).take 2)
          (find_memory_references_in_bytes
            ((codeWindow [0x8D, 0x86, 0, 0, 0, 0, 0, 0, 0, 0, 0, 0, 0, 0, 0]
                ⟨0, 0, 15, 0⟩ 0).take 2) 0 0)).length = 2 := by
  have h := C1_truncation_to_encoded_length (fun _ _ => Except.ok (some ⟨2, 0⟩))
    [0x8D, 0x86, 0, 0, 0, 0, 0, 0, 0, 0, 0, 0, 0, 0, 0] ⟨0, 0, 15, 0⟩ 0 ⟨2, 0⟩
    (by decide) rfl (by decide)
  exact ⟨by decide, h.1.trans (by decide), h.2.2⟩

/-- C4: `primaryOffset` is the `signedOffset` of the first match in
ascending byte-offset order, rendered by `formatOffset` (`"0x" +` upper-case
hex for non-negative, `"-0x" +` hex of the magnitude for negative), and is
`"0x0"` when the match list is empty; an embedded value equal to
`referenceBase` renders `"0x0"` and one equal to `referenceBase - 1`
renders `"-0x1"`. -/
theorem C4_primary_offset_rendering (md : Decoder) (binary : List Nat)
    (cfg : Config) (addr : Nat) (insn : DecodedInsn)
    (hin : ¬((addr : Int) - (cfg.image_base : Int) < 0 ∨
        (addr : Int) - (cfg.image_base : Int) + (cfg.bytes_to_read : Int) >
          (binary.length : Int)))
    (hmd : md (codeWindow binary cfg addr) addr = Except.ok (some insn)) :
    (∀ (p : MemMatch) (rest : List MemMatch),
        find_memory_references_in_bytes ((codeWindow binary cfg addr).take insn.size)
            cfg.memory_base cfg.max_offset_range = p :: rest →
          processAddress md binary cfg addr =
            Outcome.described ("0x" ++ hexPad8 insn.address)
              { bytes :=
                  create_patched_bytes_string
                    ((codeWindow binary cfg addr).take insn.size) (p :: rest)
                offset := formatOffset p.memory_offset }) ∧
    (find_memory_references_in_bytes ((codeWindow binary cfg addr).take insn.size)
          cfg.memory_base cfg.max_offset_range = [] →
        processAddress md binary cfg addr =
          Outcome.described ("0x" ++ hexPad8 insn.address)
            { bytes :=
                create_patched_bytes_string
                  ((codeWindow binary cfg addr).take insn.size) []
              offset := "0x0" }) ∧
    formatOffset 0 = "0x0" ∧ formatOffset (-1) = "-0x1" := by
  have hd := processAddress_described md binary cfg addr insn hin hmd
  refine ⟨fun p rest hfind => ?_, fun hfind => ?_, rfl, rfl⟩
  · rw [hd, hfind]
  · rw [hd, hfind]
    rfl

/-- Witness for C4: a window embedding exactly `referenceBase - 1` yields a
single match rendered as `"-0x1"`. -/
theorem C4_primary_offset_rendering_witness :
    processAddress (fun _ _ => Except.ok (some ⟨6, 0⟩))
        [0x8D, 0x86, 0x63, 0x40, 0xCF, 0x01] ⟨0, 0x01CF4064, 6, 0x10000⟩ 0 =
      Outcome.described "0x00000000"
        { bytes := "8D 86 XX XX XX XX", offset := "-0x1" } ∧
    formatOffset 0 = "0x0" := by
  have h := C4_primary_offset_rendering (fun _ _ => Except.ok (some ⟨6, 0⟩))
    [0x8D, 0x86, 0x63, 0x40, 0xCF, 0x01] ⟨0, 0x01CF4064, 6, 0x10000⟩ 0 ⟨6, 0⟩
    (by decide) rfl
  have h1 := h.1 { byte_offset := 2, memory_offset := -1, original_addr := 0x01CF4063 }
    [] (by decide)
  exact ⟨h1.trans (by decide), h.2.2.1⟩

/-- C5: a candidate address whose file offset is negative or whose window
overruns the image never reaches the decoder (the outcome is the same for
every decoder `md`), adds no descriptor, and increments only the
out-of-range counter — never the decode-failure counter. -/
theorem C5_out_of_range_skips_decoder (binary : List Nat) (cfg : Config) (addr : Nat)
    (h : (addr : Int) - (cfg.image_base : Int) < 0 ∨
        (addr : Int) - (cfg.image_base : Int) + (cfg.bytes_to_read : Int) >
          (binary.length : Int)) :
    ∀ (md : Decoder) (s : Stats),
      processAddress md binary cfg addr = Outcome.outOfRange ∧
      step md binary cfg s addr =
        { s with out_of_range_addresses := s.out_of_range_addresses + 1 } := by
  intro md s
  refine ⟨processAddress_out_of_range md binary cfg addr h, ?_⟩
  simp only [step, processAddress_out_of_range md binary cfg addr h]

/-- Witness for C5: address `0` with image base `0x400000` has a negative
file offset; the step leaves every other accumulator unchanged. -/
theorem C5_out_of_range_skips_decoder_witness :
    ((0 : Int) - ((0x400000 : Nat) : Int) < 0 ∨
        (0 : Int) - ((0x400000 : Nat) : Int) + ((15 : Nat) : Int) >
          (([1, 2, 3] : List Nat).length : Int)) ∧
      processAddress (fun _ _ => Except.error ()) [1, 2, 3] ⟨0x400000, 0, 15, 0⟩ 0 =
        Outcome.outOfRange ∧
      step (fun _ _ => Except.error ()) [1, 2, 3] ⟨0x400000, 0, 15, 0⟩
          { instructions := [], successful_disassemblies := 0,
            out_of_range_addresses := 0, failed_disassemblies := 0 } 0 =
        { instructions := [], successful_disassemblies := 0,
          out_of_range_addresses := 1, failed_disassemblies := 0 } := by
  have h := C5_out_of_range_skips_decoder [1, 2, 3] ⟨0x400000, 0, 15, 0⟩ 0 (by decide)
    (fun _ _ => Except.error ())
    { instructions := [], successful_disassemblies := 0,
      out_of_range_addresses := 0, failed_disassemblies := 0 }
  exact ⟨by decide, h.1, h.2⟩

/-- C6 counterexample: a decoder that returns no instruction and a decoder
that raises produce per-address outcomes of different kinds
(`DecodeFailed` vs `DecodeError`), yet the whole accumulated run state —
everything the final summary is printed from — is identical, so the
summary does not report the two decode-failure kinds as separate counts. -/
theorem C6_counterexample_shared_failure_counter :
    kindOf (processAddress (fun _ _ => Except.ok none) [1, 2, 3, 4] ⟨0, 0, 4, 0⟩ 0) =
        OutcomeKind.decodeFailed ∧
      kindOf (processAddress (fun _ _ => Except.error ()) [1, 2, 3, 4] ⟨0, 0, 4, 0⟩ 0) =
        OutcomeKind.decodeError ∧
      runBatch (fun _ _ => Except.ok none) [1, 2, 3, 4] ⟨0, 0, 4, 0⟩ [0] =
        runBatch (fun _ _ => Except.error ()) [1, 2, 3, 4] ⟨0, 0, 4, 0⟩ [0] := by
  refine ⟨by decide, by decide, by decide⟩

/-- C6 (amended): every candidate address terminates in exactly one of four
outcomes — Described, OutOfRange, DecodeFailed (decoder returned no
instruction), DecodeError (decoder raised) — and the run's summary counters
are exactly the counts of those outcome kinds, except that DecodeFailed and
DecodeError are accumulated into the single shared
`failed_disassemblies` counter rather than two distinct counts. -/
theorem C6_four_outcomes_three_counters (md : Decoder) (binary : List Nat)
    (cfg : Config) (addrs : List Nat) :
    (runBatch md binary cfg addrs).successful_disassemblies =
        (addrs.map (fun a => kindOf (processAddress md binary cfg a))).count
          OutcomeKind.described ∧
      (runBatch md binary cfg addrs).out_of_range_addresses =
        (addrs.map (fun a => kindOf (processAddress md binary cfg a))).count
          OutcomeKind.outOfRange ∧
      (runBatch md binary cfg addrs).failed_disassemblies =
        (addrs.map (fun a => kindOf (processAddress md binary cfg a))).count
            OutcomeKind.decodeFailed +
          (addrs.map (fun a => kindOf (processAddress md binary cfg a))).count
            OutcomeKind.decodeError := by
  have h := runFrom_counts md binary cfg addrs
    { instructions := [], successful_disassemblies := 0,
      out_of_range_addresses := 0, failed_disassemblies := 0 }
  obtain ⟨h1, h2, h3⟩ := h
  exact ⟨by rw [runBatch, h1]; dsimp only; omega,
    by rw [runBatch, h2]; dsimp only; omega,
    by rw [runBatch, h3]; dsimp only; omega⟩

lemma kind_count_total : ∀ (l : List OutcomeKind),
    l.count OutcomeKind.described + l.count OutcomeKind.outOfRange +
        (l.count OutcomeKind.decodeFailed + l.count OutcomeKind.decodeError) =
      l.length := by
  intro l
  induction l with
  | nil => rfl
  | cons k l ih =>
    cases k <;> simp [List.count_cons] <;> omega

/-- C7: the batch driver processes the entire candidate list — the run over
`xs ++ ys` continues with `ys` from the accumulated state after `xs`, no
matter which outcomes occurred in `xs` — and each address increments
exactly one outcome counter, so Described + OutOfRange + decode-failure
counts sum to the length of the candidate list. -/
theorem C7_no_abort_counters_sum (md : Decoder) (binary : List Nat) (cfg : Config) :
    (∀ addrs : List Nat,
        (runBatch md binary cfg addrs).successful_disassemblies +
            (runBatch md binary cfg addrs).out_of_range_addresses +
            (runBatch md binary cfg addrs).failed_disassemblies = addrs.length) ∧
      (∀ xs ys : List Nat,
          runBatch md binary cfg (xs ++ ys) =
            ys.foldl (step md binary cfg) (runBatch md binary cfg xs)) := by
  constructor
  · intro addrs
    obtain ⟨h1, h2, h3⟩ := runFrom_counts md binary cfg addrs
      { instructions := [], successful_disassemblies := 0,
        out_of_range_addresses := 0, failed_disassemblies := 0 }
    have htot := kind_count_total
      (addrs.map (fun a => kindOf (processAddress md binary cfg a)))
    rw [List.length_map] at htot
    rw [runBatch, h1, h2, h3]
    dsimp only
    omega
  · intro xs ys
    rw [runBatch, runBatch, List.foldl_append]

/-- C8: running the batch on an empty candidate list yields zero
`total_instructions`, an empty instruction mapping, and a success rate
reported as unavailable (`none`) rather than a division by zero. -/
theorem C8_empty_batch (md : Decoder) (binary : List Nat) (cfg : Config) :
    runBatch md binary cfg [] =
        { instructions := [], successful_disassemblies := 0,
          out_of_range_addresses := 0, failed_disassemblies := 0 } ∧
      total_instructions (runBatch md binary cfg []) = 0 ∧
      success_rate (runBatch md binary cfg []) [] = none :=
  ⟨rfl, rfl, rfl⟩

lemma lookup_append_not_found :
    ∀ (m : List (String × Descriptor)) (k : String) (v : Descriptor),
      m.any (fun kv => kv.1 == k) = false → (m ++ [(k, v)]).lookup k = some v := by
  intro m
  induction m with
  | nil => intro k v _; simp [List.lookup]
  | cons kv m ih =>
    intro k v h
    obtain ⟨k1, v1⟩ := kv
    simp only [List.any_cons, Bool.or_eq_false_iff] at h
    have hkk : (k == k1) = false := by
      have h1 := h.1
      simp only [beq_eq_false_iff_ne] at h1 ⊢
      exact fun he => h1 he.symm
    simp only [List.cons_append, List.lookup, hkk]
    exact ih k v h.2

lemma lookup_map_overwrite :
    ∀ (m : List (String × Descriptor)) (k : String) (v : Descriptor),
      m.any (fun kv => kv.1 == k) = true →
        ((m.map (fun kv => if kv.1 == k then (k, v) else kv)).lookup k) = some v := by
  intro m
  induction m with
  | nil => intro k v h; simp at h
  | cons kv m ih =>
    intro k v h
    obtain ⟨k1, v1⟩ := kv
    by_cases hk : (k1 == k) = true
    · simp only [List.map_cons]
      rw [if_pos hk]
      simp [List.lookup]
    · have hk2 : (k1 == k) = false := by simpa using hk
      have hany : m.any (fun kv => kv.1 == k) = true := by
        simp only [List.any_cons] at h
        rcases Bool.or_eq_true_iff.mp h with hl | hr
        · exact absurd hl (by simp [hk2])
        · exact hr
      have hkk : (k == k1) = false := by
        simp only [beq_eq_false_iff_ne] at hk2 ⊢
        exact fun he => hk2 he.symm
      simp only [List.map_cons]
      rw [if_neg hk]
      simp only [List.lookup, hkk]
      exact ih k v hany

lemma dictInsert_lookup (m : List (String × Descriptor)) (k : String) (v : Descriptor) :
    (dictInsert m k v).lookup k = some v := by
  unfold dictInsert
  by_cases h : m.any (fun kv => kv.1 == k)
  · rw [if_pos h]
    exact lookup_map_overwrite m k v h
  · rw [if_neg h]
    refine lookup_append_not_found m k v ?_
    simp only [Bool.not_eq_true] at h
    exact h

/-- C10: descriptors are keyed by the decoder-reported address formatted as
`"0x"` plus 8-digit upper-case hex; a new key is appended in input order
while an existing key is silently overwritten in place (preserving the
mapping's length), and the Described count — reported as
`total_instructions` — still counts every successful decode, so on the
concrete duplicate-key run below `total_instructions = 2` while the mapping
holds a single entry carrying the later descriptor. -/
theorem C10_keying_and_overwrite (md : Decoder) (binary : List Nat) (cfg : Config)
    (addr : Nat) (insn : DecodedInsn)
    (hin : ¬((addr : Int) - (cfg.image_base : Int) < 0 ∨
        (addr : Int) - (cfg.image_base : Int) + (cfg.bytes_to_read : Int) >
          (binary.length : Int)))
    (hmd : md (codeWindow binary cfg addr) addr = Except.ok (some insn)) :
    (∃ d, processAddress md binary cfg addr =
        Outcome.described ("0x" ++ hexPad8 insn.address) d) ∧
      (∀ (m : List (String × Descriptor)) (k : String) (v : Descriptor),
          (m.any (fun kv => kv.1 == k) = false → dictInsert m k v = m ++ [(k, v)]) ∧
          (m.any (fun kv => kv.1 == k) = true →
              (dictInsert m k v).length = m.length) ∧
          (dictInsert m k v).lookup k = some v) ∧
      ((runBatch (fun _ _ => Except.ok (some ⟨1, 5⟩)) [170, 187] ⟨0, 0, 1, 0⟩
            [0, 1]).instructions =
          [("0x00000005", { bytes := "BB", offset := "0x0" })] ∧
        total_instructions
            (runBatch (fun _ _ => Except.ok (some ⟨1, 5⟩)) [170, 187] ⟨0, 0, 1, 0⟩
              [0, 1]) = 2) := by
  refine ⟨⟨_, processAddress_described md binary cfg addr insn hin hmd⟩,
    fun m k v => ⟨fun h => ?_, fun h => ?_, dictInsert_lookup m k v⟩, by decide, by decide⟩
  · unfold dictInsert
    rw [if_neg (by simp [h])]
  · unfold dictInsert
    rw [if_pos h, List.length_map]

/-- Witness for C10: the concrete duplicate-key run, through the theorem's
hypotheses instantiated with a decoder that reports address `5` for every
candidate. -/
theorem C10_keying_and_overwrite_witness :
    (∃ d, processAddress (fun _ _ => Except.ok (some ⟨1, 5⟩)) [170, 187] ⟨0, 0, 1, 0⟩ 0 =
        Outcome.described "0x00000005" d) ∧
      (runBatch (fun _ _ => Except.ok (some ⟨1, 5⟩)) [170, 187] ⟨0, 0, 1, 0⟩
          [0, 1]).instructions.length = 1 ∧
      total_instructions
          (runBatch (fun _ _ => Except.ok (some ⟨1, 5⟩)) [170, 187] ⟨0, 0, 1, 0⟩
            [0, 1]) = 2 := by
  have h := C10_keying_and_overwrite (fun _ _ => Except.ok (some ⟨1, 5⟩)) [170, 187]
    ⟨0, 0, 1, 0⟩ 0 ⟨1, 5⟩ (by decide) rfl
  obtain ⟨⟨d, hd⟩, _, hrun, htot⟩ := h
  refine ⟨⟨d, hd.trans (congrArg (fun k => Outcome.described k d)
    (by decide : ("0x" ++ hexPad8 (5 : Nat)) = "0x00000005"))⟩, ?_, htot⟩
  rw [hrun]
  rfl

lemma takeWhile_all_append (p : Char → Bool) :
    ∀ (ds l : List Char), (∀ c ∈ ds, p c = true) →
      (ds ++ l).takeWhile p = ds ++ l.takeWhile p := by
  intro ds
  induction ds with
  | nil => intro l _; rfl
  | cons c ds ih =>
    intro l h
    have hc : p c = true := h c (List.mem_cons_self c ds)
    simp only [List.cons_append, List.takeWhile_cons, hc, if_true]
    rw [ih l (fun d hd => h d (List.mem_cons_of_mem c hd))]

lemma dropWhile_all_append (p : Char → Bool) :
    ∀ (ds l : List Char), (∀ c ∈ ds, p c = true) →
      (ds ++ l).dropWhile p = l.dropWhile p := by
  intro ds
  induction ds with
  | nil => intro l _; rfl
  | cons c ds ih =>
    intro l h
    have hc : p c = true := h c (List.mem_cons_self c ds)
    simp only [List.cons_append, List.dropWhile_cons, hc, if_true]
    exact ih l (fun d hd => h d (List.mem_cons_of_mem c hd))

lemma substHexAux_nil (base r : Int) (fuel : Nat) :
    substHexAux base r fuel [] = [] := by
  cases fuel <;> simp [substHexAux]

lemma substHexAux_cons_nomatch (base r : Int) (fuel : Nat) (c : Char) (cs : List Char)
    (h : ¬(c = '0' ∧ cs.head? = some 'x' ∧
        cs.tail.takeWhile isHexDigitChar ≠ [])) :
    substHexAux base r (fuel + 1) (c :: cs) = c :: substHexAux base r fuel cs := by
  simp only [substHexAux]
  rw [if_neg h]

lemma substHexAux_cons_match (base r : Int) (fuel : Nat) (cs : List Char)
    (hx : cs.head? = some 'x') (hts : cs.tail.takeWhile isHexDigitChar ≠ []) :
    substHexAux base r (fuel + 1) ('0' :: cs) =
      if |((parseHexDigits (cs.tail.takeWhile isHexDigitChar) : Nat) : Int) - base| ≤ r
      then (placeholderFor base
              (parseHexDigits (cs.tail.takeWhile isHexDigitChar))).toList ++
            substHexAux base r fuel (cs.tail.dropWhile isHexDigitChar)
      else '0' :: 'x' :: (cs.tail.takeWhile isHexDigitChar ++
            substHexAux base r fuel (cs.tail.dropWhile isHexDigitChar)) := by
  simp only [substHexAux]
  rw [if_pos (And.intro trivial (And.intro hx hts))]

lemma dropWhile_of_takeWhile_nil (p : Char → Bool) :
    ∀ (l : List Char), l.takeWhile p = [] → l.dropWhile p = l := by
  intro l
  cases l with
  | nil => intro _; rfl
  | cons c t =>
    intro h
    simp only [List.takeWhile_cons] at h
    have hc : p c = false := by
      cases hpc : p c
      · rfl
      · simp [hpc] at h
    simp [List.dropWhile_cons, hc]

lemma substHexAux_renderTokens (base r : Int) :
    ∀ (ts : List OperandToken) (fuel : Nat),
      (renderTokens ts).length ≤ fuel → wfTokens ts = true →
        substHexAux base r fuel (renderTokens ts) = substTokens base r ts := by
  intro ts
  induction ts with
  | nil =>
    intro fuel _ _
    exact substHexAux_nil base r fuel
  | cons t ts ih =>
    intro fuel hf hwf
    cases t with
    | rawChar c =>
      simp only [wfTokens, Bool.and_eq_true, Bool.not_eq_true'] at hwf
      obtain ⟨hns, hwts⟩ := hwf
      cases fuel with
      | zero => simp [renderTokens, renderToken] at hf
      | succ f =>
        have hf2 : (renderTokens ts).length ≤ f := by
          simp only [renderTokens, renderToken, List.length_append,
            List.length_cons, List.length_nil] at hf
          omega
        show substHexAux base r (f + 1) (c :: renderTokens ts) =
          c :: substTokens base r ts
        rw [substHexAux_cons_nomatch base r f c (renderTokens ts)
            (of_decide_eq_false hns)]
        rw [ih f hf2 hwts]
    | hexLit ds =>
      simp only [wfTokens, Bool.and_eq_true, Bool.not_eq_true',
        List.isEmpty_iff, List.all_eq_true] at hwf
      obtain ⟨⟨⟨hne, hall⟩, htw⟩, hwts⟩ := hwf
      have hne2 : ds ≠ [] := by
        intro he
        subst he
        simp at hne
      have htw2 : (renderTokens ts).takeWhile isHexDigitChar = [] := htw
      have htake : ('x' :: (ds ++ renderTokens ts)).tail.takeWhile isHexDigitChar
          = ds := by
        show (ds ++ renderTokens ts).takeWhile isHexDigitChar = ds
        rw [takeWhile_all_append isHexDigitChar ds (renderTokens ts) hall, htw2,
          List.append_nil]
      have hdrop : ('x' :: (ds ++ renderTokens ts)).tail.dropWhile isHexDigitChar
          = renderTokens ts := by
        show (ds ++ renderTokens ts).dropWhile isHexDigitChar = renderTokens ts
        rw [dropWhile_all_append isHexDigitChar ds (renderTokens ts) hall]
        exact dropWhile_of_takeWhile_nil isHexDigitChar (renderTokens ts) htw2
      cases fuel with
      | zero => simp [renderTokens, renderToken] at hf
      | succ f =>
        have hf2 : (renderTokens ts).length ≤ f := by
          simp only [renderTokens, renderToken, List.length_append,
            List.length_cons] at hf
          omega
        show substHexAux base r (f + 1)
            ('0' :: 'x' :: (ds ++ renderTokens ts)) = _
        rw [substHexAux_cons_match base r f ('x' :: (ds ++ renderTokens ts)) rfl
            (by rw [htake]; exact hne2)]
        rw [htake, hdrop, ih f hf2 hwts]
        show _ = (if |((parseHexDigits ds : Nat) : Int) - base| ≤ r then
            (placeholderFor base (parseHexDigits ds)).toList
          else '0' :: 'x' :: ds) ++ substTokens base r ts
        split_ifs <;> simp

/-- C9 (spec-modelled: the Text-Reference Scanner has no implementation
under `src/`): over any operand-text string — presented as a well-formed
decomposition into ordinary characters and maximal hexadecimal literals,
which covers multiple literals, arbitrary surrounding text, and mixed
in-range and out-of-range values — the scanner replaces every literal whose parsed
value is within `maxRange` of `referenceBase` by the placeholder token
carrying the signed offset (`+0xHEX` / `-0xHEX`) and leaves every
out-of-range literal and all other text unchanged; in particular
`"[0x1CF408E]"` with `referenceBase = 0x01CF4064` yields
`"[<memory_base>+0x2A]"`. -/
theorem C9_text_scanner_substitution (base r : Int) :
    (∀ ts : List OperandToken, wfTokens ts = true →
        substitute_hex_literals base r (renderTokens ts) = substTokens base r ts) ∧
      substitute_hex_literals 0x01CF4064 0x10000 "[0x1CF408E]".toList =
        "[<memory_base>+0x2A]".toList := by
  refine ⟨fun ts hwf => ?_, by decide⟩
  exact substHexAux_renderTokens base r ts (renderTokens ts).length le_rfl hwf

/-- Witness for C9: an operand text with two literals — one in range of
`0x01CF4064` (replaced) and one out of range (kept verbatim) — amid
ordinary bracket and operator characters. -/
theorem C9_text_scanner_substitution_witness :
    wfTokens
        [OperandToken.rawChar '[',
         OperandToken.hexLit ['1', 'C', 'F', '4', '0', '8', 'E'],
         OperandToken.rawChar ']', OperandToken.rawChar '+',
         OperandToken.hexLit ['F', 'F', 'F', 'F', 'F', 'F', 'F', '0']] = true ∧
      renderTokens
          [OperandToken.rawChar '[',
           OperandToken.hexLit ['1', 'C', 'F', '4', '0', '8', 'E'],
           OperandToken.rawChar ']', OperandToken.rawChar '+',
           OperandToken.hexLit ['F', 'F', 'F', 'F', 'F', 'F', 'F', '0']] =
        "[0x1CF408E]+0xFFFFFFF0".toList ∧
      substitute_hex_literals 0x01CF4064 0x10000 "[0x1CF408E]+0xFFFFFFF0".toList =
        "[<memory_base>+0x2A]+0xFFFFFFF0".toList := by
  have h := (C9_text_scanner_substitution 0x01CF4064 0x10000).1
    [OperandToken.rawChar '[',
     OperandToken.hexLit ['1', 'C', 'F', '4', '0', '8', 'E'],
     OperandToken.rawChar ']', OperandToken.rawChar '+',
     OperandToken.hexLit ['F', 'F', 'F', 'F', 'F', 'F', 'F', '0']] (by decide)
  refine ⟨by decide, by decide, ?_⟩
  rw [show ("[0x1CF408E]+0xFFFFFFF0".toList : List Char) =
      renderTokens
        [OperandToken.rawChar '[',
         OperandToken.hexLit ['1', 'C', 'F', '4', '0', '8', 'E'],
         OperandToken.rawChar ']', OperandToken.rawChar '+',
         OperandToken.hexLit ['F', 'F', 'F', 'F', 'F', 'F', 'F', '0']] from by decide]
  exact h.trans (by decide)

end PatchScript
